import Mathlib

/-!
Verification of the subnetter repository's parsing-and-computation core.

Strings are modelled as `List Char`.  IPv4 addresses and masks are 32-bit
values modelled as `Nat` (bounded by 2 ^ 32 where it matters).  The parsing
code in `subnetter/core/calculator.py` delegates to Python's `ipaddress`
module, so the relevant internals of that module (octet parsing, dotted
parsing, netmask/hostmask recognition) are embedded here as well, following
CPython's implementation.
-/

namespace Subnetter

/-- Python whitespace characters recognised by str.strip(). -/
def isPySpace (c : Char) : Bool :=
  c = ' ' || c = '\t' || c = '\n' || c = '\r' || c = '\x0b' || c = '\x0c'

/-- Python str.strip(): drop leading and trailing whitespace. -/
def pyStrip (s : List Char) : List Char :=
  List.reverse (List.dropWhile isPySpace (List.reverse (List.dropWhile isPySpace s)))

/-- Python str.split(sep) for a one-character separator. -/
def splitCh (c : Char) : List Char → List (List Char)
  | [] => [[]]
  | x :: xs =>
    if x = c then [] :: splitCh c xs
    else
      match splitCh c xs with
      | [] => [[x]]
      | y :: ys => (x :: y) :: ys

/-- ASCII decimal digit test. -/
def isDigitCh (c : Char) : Bool := '0' ≤ c && c ≤ '9'

/-- Numeric value of an ASCII digit. -/
def digitVal (c : Char) : Nat := c.toNat - 48

/-- Value of an all-digit string, as Python int() computes it. -/
def digitsVal (s : List Char) : Nat :=
  s.foldl (fun acc c => 10 * acc + digitVal c) 0

/-- Python int(s) on a decimal string literal: optional surrounding
whitespace, an optional single sign, then at least one digit. -/
def pyInt (s : List Char) : Option Int :=
  let t := pyStrip s
  match t with
  | '+' :: rest =>
    if rest ≠ [] && rest.all isDigitCh then some (digitsVal rest : Int) else none
  | '-' :: rest =>
    if rest ≠ [] && rest.all isDigitCh then some (-(digitsVal rest : Int)) else none
  | _ =>
    if t ≠ [] && t.all isDigitCh then some (digitsVal t : Int) else none

/-- Decimal rendering of a natural number, Python str(n); fuel-based so the
kernel can evaluate it (12 digits cover all 32-bit values). -/
def natToCharsAux : Nat → Nat → List Char → List Char
  | 0, _, acc => acc
  | fuel + 1, n, acc =>
    let d := Char.ofNat (48 + n % 10)
    if n < 10 then d :: acc else natToCharsAux fuel (n / 10) (d :: acc)

/-- Decimal rendering of a natural number. -/
def natToChars (n : Nat) : List Char := natToCharsAux 12 n []

/-- CPython ipaddress._parse_octet: nonempty, ASCII digits only, at most
three characters, no leading zero (except the string "0" itself), and a
value of at most 255. -/
def parseOctet (s : List Char) : Option Nat :=
  if s = [] then none
  else if !(s.all isDigitCh) then none
  else if s.length > 3 then none
  else if s ≠ ['0'] && s.head? = some '0' then none
  else if digitsVal s > 255 then none
  else some (digitsVal s)

/-- CPython ipaddress IPv4 string parsing (_ip_int_from_string): split on
the dot character, require exactly four octets, combine big-endian. -/
def ipIntFromString (s : List Char) : Option Nat :=
  match splitCh '.' s with
  | [a, b, c, d] =>
    match parseOctet a, parseOctet b, parseOctet c, parseOctet d with
    | some o0, some o1, some o2, some o3 =>
      some (2 ^ 24 * o0 + 2 ^ 16 * o1 + 2 ^ 8 * o2 + o3)
    | _, _, _, _ => none
  | _ => none

/-- Python int.bit_length(), fuel-based (64 bits of fuel are ample here). -/
def bitLenAux : Nat → Nat → Nat
  | 0, _ => 0
  | fuel + 1, n => if n = 0 then 0 else bitLenAux fuel (n / 2) + 1

/-- Python int.bit_length() for values below 2 ^ 64. -/
def bitLen (n : Nat) : Nat := bitLenAux 64 n

/-- ipaddress._count_righthand_zero_bits(number, bits).  The source computes
min(bits, (~number AND (number-1)).bit_length()) with ~ in two's complement;
for 0 < number < 2 ^ 32 this equals the expression below, and the source
returns bits outright for number = 0. -/
def countRighthandZeroBits (number bits : Nat) : Nat :=
  if number = 0 then bits
  else min bits (bitLen ((0xFFFFFFFF ^^^ number) &&& (number - 1)))

/-- ipaddress netmask-pattern recognition (ones then zeros): returns the
number of leading one bits when the value has that shape. -/
def pfxFromIpInt (ipInt : Nat) : Option Nat :=
  let trailingZeroes := countRighthandZeroBits ipInt 32
  let pfxLen := 32 - trailingZeroes
  let leadingOnes := ipInt >>> trailingZeroes
  let allOnes := 2 ^ pfxLen - 1
  if leadingOnes = allOnes then some pfxLen else none

/-- ipaddress numeric mask-length string parsing: ASCII digits only (no
sign, no surrounding whitespace), value in [0,32]. -/
def pfxFromPfxString (s : List Char) : Option Nat :=
  if s ≠ [] && s.all isDigitCh then
    if digitsVal s ≤ 32 then some (digitsVal s) else none
  else none

/-- ipaddress dotted mask-string recognition: parse as an IPv4 value and
accept a netmask (ones then zeros) or, failing that, a hostmask (zeros then
ones, matched after inverting the bits).  The two ambiguous values, all
zeros and all ones, hit the first branch and count as netmasks. -/
def pfxFromIpString (s : List Char) : Option Nat :=
  match ipIntFromString s with
  | none => none
  | some ipInt =>
    match pfxFromIpInt ipInt with
    | some p => some p
    | none => pfxFromIpInt (ipInt ^^^ 0xFFFFFFFF)

/-- Spec error taxonomy.  The source raises ValueError with a distinct
message at the site corresponding to each kind. -/
inductive ParseError
  | missingMask
  | malformedAddress
  | malformedMask
  | nonContiguousMask
  | pfxOutOfRange
  | unsupportedFamily
deriving DecidableEq

/-- ipaddress._make_netmask on a string: first try a numeric mask-length
string, then a dotted netmask or hostmask.  Error kinds follow the spec
taxonomy: an all-digits but out-of-range value is PrefixOutOfRange, a
dotted quad that is neither netmask nor hostmask is NonContiguousMask,
anything else is MalformedMask. -/
def makeNetmaskE (s : List Char) : Except ParseError Nat :=
  match pfxFromPfxString s with
  | some p => .ok p
  | none =>
    match pfxFromIpString s with
    | some p => .ok p
    | none =>
      if s ≠ [] && s.all isDigitCh then .error .pfxOutOfRange
      else
        match ipIntFromString s with
        | some _ => .error .nonContiguousMask
        | none => .error .malformedMask

/-- ipaddress netmask of a mask length: ALL_ONES XOR (ALL_ONES >>> p). -/
def netmaskOfPfx (p : Nat) : Nat := 0xFFFFFFFF ^^^ (0xFFFFFFFF >>> p)

/-- ipaddress IPv4Network.hostmask: ALL_ONES XOR netmask. -/
def hostmaskOfPfx (p : Nat) : Nat := 0xFFFFFFFF ^^^ netmaskOfPfx p

/-- Four numbers joined with dots, as ".".join(str(x) for x in parts). -/
def renderQuad (a b c d : Nat) : List Char :=
  natToChars a ++ '.' ::
  (natToChars b ++ '.' :: (natToChars c ++ '.' :: natToChars d))

/-- Dotted-decimal rendering of a 32-bit value: str(IPv4Address(n)) in
ipaddress, and int_to_ip(n) in subnetter_v4 (both render this way). -/
def intToIp (n : Nat) : List Char :=
  renderQuad ((n >>> 24) &&& 0xFF) ((n >>> 16) &&& 0xFF)
    ((n >>> 8) &&& 0xFF) (n &&& 0xFF)

/-- ipaddress.ip_interface specialised to IPv4 (the calculator raises on
any non-IPv4 result, so a left side that is not a dotted quad is an error
here): split on the slash, allow at most one, parse the address, then the
mask part; the mask length defaults to 32 when absent. -/
def ipInterfaceV4 (s : List Char) : Except ParseError (Nat × Nat) :=
  match splitCh '/' s with
  | [a] =>
    match ipIntFromString a with
    | some ip => .ok (ip, 32)
    | none => .error .malformedAddress
  | [a, m] =>
    match ipIntFromString a with
    | none => .error .malformedAddress
    | some ip =>
      match makeNetmaskE m with
      | .ok p => .ok (ip, p)
      | .error e => .error e
  | _ => .error .malformedAddress

/-- subnetter.core.calculator.parse_ip_and_mask.  The combined form is used
only when the mask argument is None (an empty string does not count); the
dotted-mask branch builds "0.0.0.0/" ++ mask, so a mask containing a slash
makes that split fail. -/
def parseIpAndMask (ipInput : List Char) (maskInput : Option (List Char)) :
    Except ParseError (Nat × Nat) :=
  let s := pyStrip ipInput
  if s.contains '/' && maskInput.isNone then
    ipInterfaceV4 s
  else
    match maskInput with
    | none => .error .missingMask
    | some m =>
      match ipIntFromString s with
      | none => .error .malformedAddress
      | some ip =>
        let maskRaw := pyStrip m
        if maskRaw.head? = some '/' then
          match pyInt maskRaw.tail with
          | none => .error .malformedMask
          | some z =>
            if 0 ≤ z ∧ z ≤ 32 then .ok (ip, z.toNat) else .error .pfxOutOfRange
        else
          if maskRaw.contains '/' then .error .malformedMask
          else
            match makeNetmaskE maskRaw with
            | .ok p => .ok (ip, p)
            | .error e => .error e

/-- subnetter.core.calculator.wildcard_from_netmask. -/
def wildcardFromNetmask (mask : Nat) : Nat := mask ^^^ 0xFFFFFFFF

/-- subnetter.core.calculator.SubnetInfo; the address-valued fields hold
dotted-decimal text, exactly as the source stores str() renderings. -/
structure SubnetInfo where
  ip : List Char
  cidr : Nat
  network : List Char
  broadcast : List Char
  netmask : List Char
  wildcard : List Char
  first_host : List Char
  last_host : List Char
  total_hosts : Nat
  usable_hosts : Nat
  host_bits : Nat
deriving DecidableEq

/-- network_address of IPv4Network((ip, p), strict=False): ip AND netmask. -/
def networkOf (ip p : Nat) : Nat := ip &&& netmaskOfPfx p

/-- broadcast_address of IPv4Network: network OR hostmask. -/
def broadcastOf (ip p : Nat) : Nat := networkOf ip p ||| hostmaskOfPfx p

/-- total addresses: 1 <<< host_bits. -/
def totalOf (p : Nat) : Nat := 1 <<< (32 - p)

/-- The calculator's usable-host count, by branch on the mask length. -/
def usableOf (p : Nat) : Nat :=
  if p = 32 then 1
  else if p = 31 then 2
  else max (totalOf p - 2) 0

/-- The calculator's first usable host, by branch on the mask length. -/
def firstHostOf (ip p : Nat) : Nat :=
  if p = 32 then ip
  else if p = 31 then networkOf ip p
  else if totalOf p ≥ 4 then networkOf ip p + 1 else networkOf ip p

/-- The calculator's last usable host, by branch on the mask length. -/
def lastHostOf (ip p : Nat) : Nat :=
  if p = 32 then ip
  else if p = 31 then broadcastOf ip p
  else if totalOf p ≥ 4 then broadcastOf ip p - 1 else broadcastOf ip p

/-- subnetter.core.calculator.compute_subnet.  The only way the source can
fail is IPv4Network((ip, p)) validating its arguments: the mask length must
lie in [0,32], and ip is a 32-bit value by the IPv4Address type; outside
that domain the result is None. -/
def computeSubnet (ip p : Nat) : Option SubnetInfo :=
  if ip < 2 ^ 32 ∧ p ≤ 32 then
    some {
      ip := intToIp ip
      cidr := p
      network := intToIp (networkOf ip p)
      broadcast := intToIp (broadcastOf ip p)
      netmask := intToIp (netmaskOfPfx p)
      wildcard := intToIp (wildcardFromNetmask (netmaskOfPfx p))
      first_host := intToIp (firstHostOf ip p)
      last_host := intToIp (lastHostOf ip p)
      total_hosts := totalOf p
      usable_hosts := usableOf p
      host_bits := 32 - p }
  else none

/-- subnetter_v4.compute_subnet is line for line the same algorithm as
subnetter.core.calculator.compute_subnet, so it shares one embedding. -/
def v4ComputeSubnet : Nat → Nat → Option SubnetInfo := computeSubnet

/-- subnetter_v4.dotted_mask_to_prefix: ip_network("0.0.0.0/" ++ mask),
None where the source raises. -/
def dottedMaskToPfx (s : List Char) : Option Nat :=
  if s.contains '/' then none
  else
    match makeNetmaskE s with
    | .ok p => some p
    | .error _ => none

/-- subnetter_v4.manual_compute_subnet.  None where the source raises (bad
address string, bad mask string, or a mask length above 32 making the shift
amount negative); negative mask lengths fall outside the 32-bit model and
are also mapped to None (nothing here exercises them). -/
def manualComputeSubnet (ipStr maskCidr : List Char) : Option SubnetInfo :=
  match ipIntFromString ipStr with
  | none => none
  | some ip =>
    let po : Option Nat :=
      if maskCidr.head? = some '/' then
        match pyInt maskCidr.tail with
        | some z => if 0 ≤ z ∧ z ≤ 32 then some z.toNat else none
        | none => none
      else dottedMaskToPfx maskCidr
    po.bind fun p =>
      let maskInt := if p > 0 then (0xFFFFFFFF <<< (32 - p)) &&& 0xFFFFFFFF else 0
      let networkInt := ip &&& maskInt
      let hostBits := 32 - p
      let total := 1 <<< hostBits
      let broadcastInt := (networkInt ||| ((1 <<< hostBits) - 1)) &&& 0xFFFFFFFF
      let first := if p = 32 then ip
                   else if p = 31 then networkInt
                   else if total ≥ 4 then networkInt + 1 else networkInt
      let last := if p = 32 then ip
                  else if p = 31 then broadcastInt
                  else if total ≥ 4 then broadcastInt - 1 else broadcastInt
      let usable := if p = 32 then 1
                    else if p = 31 then 2
                    else max (total - 2) 0
      some {
        ip := intToIp ip
        cidr := p
        network := intToIp networkInt
        broadcast := intToIp broadcastInt
        netmask := intToIp maskInt
        wildcard := intToIp (0xFFFFFFFF ^^^ maskInt)
        first_host := intToIp first
        last_host := intToIp last
        total_hosts := total
        usable_hosts := usable
        host_bits := hostBits }

/-- Leading one bits of the low 32 bits, scanning from bit 31 down, as the
bin(mask_int).zfill(32) loop of subnetter_v1 counts them. -/
def leadingOnesFrom : Nat → Nat → Nat
  | 0, _ => 0
  | k + 1, n => if n.testBit k then 1 + leadingOnesFrom k n else 0

/-- subnetter_v1.calculate_subnet.  The source maps int() over the
dot-separated parts, uses the first four of each, copies the network parts
into the broadcast and overwrites its last octet with 255, and counts the
leading ones of the packed mask.  None where the source raises (a
non-integer part, or fewer than four parts); negative parts fall outside
the Nat model and are also mapped to None (nothing here exercises them). -/
def calculateSubnetV1 (ip mask : List Char) :
    Option (List Char × List Char × Int) :=
  let toParts : List Char → Option (Nat × Nat × Nat × Nat) := fun s =>
    match (splitCh '.' s).mapM pyInt with
    | some (a :: b :: c :: d :: _) =>
      if 0 ≤ a ∧ 0 ≤ b ∧ 0 ≤ c ∧ 0 ≤ d then
        some (a.toNat, b.toNat, c.toNat, d.toNat)
      else none
    | _ => none
  match toParts ip, toParts mask with
  | some (i0, i1, i2, i3), some (m0, m1, m2, m3) =>
    let n0 := i0 &&& m0
    let n1 := i1 &&& m1
    let n2 := i2 &&& m2
    let n3 := i3 &&& m3
    let networkAddress := renderQuad n0 n1 n2 n3
    let broadcastAddress := renderQuad n0 n1 n2 255
    let maskInt := (m0 <<< 24) ||| ((m1 <<< 16) ||| ((m2 <<< 8) ||| m3))
    let hostBits := 32 - leadingOnesFrom 32 maskInt
    let numHosts : Int := (2 : Int) ^ hostBits - 2
    some (networkAddress, broadcastAddress, numHosts)
  | _, _ => none

/-! ### String-level helper lemmas -/

theorem splitCh_of_not_mem {c : Char} {s : List Char} (h : c ∉ s) :
    splitCh c s = [s] := by
  induction s with
  | nil => rfl
  | cons x xs ih =>
    have hx : ¬(x = c) := fun e => h (e ▸ List.mem_cons_self x xs)
    have hxs : c ∉ xs := fun m => h (List.mem_cons_of_mem x m)
    simp [splitCh, hx, ih hxs]

theorem splitCh_append_sep {c : Char} {pre rest : List Char} (h : c ∉ pre) :
    splitCh c (pre ++ c :: rest) = pre :: splitCh c rest := by
  induction pre with
  | nil => simp [splitCh]
  | cons x xs ih =>
    have hx : ¬(x = c) := fun e => h (e ▸ List.mem_cons_self x xs)
    have hxs : c ∉ xs := fun m => h (List.mem_cons_of_mem x m)
    simp [splitCh, hx, ih hxs]

theorem mem_splitCh_of_mem {c a : Char} {s : List Char} (h : a ∈ s) (hne : a ≠ c) :
    ∃ t, t ∈ splitCh c s ∧ a ∈ t := by
  induction s with
  | nil => cases h
  | cons x xs ih =>
    by_cases hx : x = c
    · subst hx
      rcases List.mem_cons.mp h with rfl | hmem
      · exact absurd rfl hne
      · rcases ih hmem with ⟨t, ht, hat⟩
        exact ⟨t, by simp [splitCh, ht], hat⟩
    · rcases hsp : splitCh c xs with _ | ⟨y, ys⟩
      · cases xs with
        | nil => simp [splitCh] at hsp
        | cons z zs =>
          exfalso
          by_cases hz : z = c <;> simp [splitCh, hz] at hsp
          rcases hr : splitCh c zs with _ | _ <;> simp [hr] at hsp
      · rcases List.mem_cons.mp h with rfl | hmem
        · exact ⟨a :: y, by simp [splitCh, hx, hsp], List.mem_cons_self a y⟩
        · rcases ih hmem with ⟨t, ht, hat⟩
          rw [hsp] at ht
          rcases List.mem_cons.mp ht with rfl | htl
          · exact ⟨x :: t, by simp [splitCh, hx, hsp], List.mem_cons_of_mem x hat⟩
          · exact ⟨t, by simp [splitCh, hx, hsp]; right; exact htl, hat⟩

theorem dropWhile_eq_self_of_none {p : Char → Bool} {l : List Char}
    (h : ∀ c ∈ l, p c = false) : List.dropWhile p l = l := by
  cases l with
  | nil => rfl
  | cons x xs => simp [List.dropWhile, h x (List.mem_cons_self x xs)]

theorem pyStrip_eq_self {s : List Char} (h : ∀ c ∈ s, isPySpace c = false) :
    pyStrip s = s := by
  unfold pyStrip
  rw [dropWhile_eq_self_of_none h]
  rw [dropWhile_eq_self_of_none (fun c hc => h c (List.mem_reverse.mp hc))]
  exact List.reverse_reverse s

theorem contains_eq_false {a : Char} {l : List Char} (h : a ∉ l) :
    l.contains a = false := by
  simp [List.contains, List.elem_eq_mem, h]

theorem contains_eq_true {a : Char} {l : List Char} (h : a ∈ l) :
    l.contains a = true := by
  simp [List.contains, List.elem_eq_mem, h]

theorem not_mem_of_all_digits {l : List Char} {c : Char}
    (hall : l.all isDigitCh = true) (hc : isDigitCh c = false) : c ∉ l := by
  intro hm
  have := List.all_eq_true.mp hall c hm
  rw [hc] at this
  cases this

theorem isPySpace_of_digit {c : Char} (h : isDigitCh c = true) :
    isPySpace c = false := by
  unfold isPySpace
  have h1 : ¬(c = ' ') := by rintro rfl; exact absurd h (by decide)
  have h2 : ¬(c = '\t') := by rintro rfl; exact absurd h (by decide)
  have h3 : ¬(c = '\n') := by rintro rfl; exact absurd h (by decide)
  have h4 : ¬(c = '\r') := by rintro rfl; exact absurd h (by decide)
  have h5 : ¬(c = '\x0b') := by rintro rfl; exact absurd h (by decide)
  have h6 : ¬(c = '\x0c') := by rintro rfl; exact absurd h (by decide)
  simp [h1, h2, h3, h4, h5, h6]

/-! ### Decimal round trips, settled by evaluation over the bounded range -/

set_option maxRecDepth 40000

theorem parseOctet_natToChars : ∀ o, o < 256 → parseOctet (natToChars o) = some o := by
  decide

theorem natToChars_digits : ∀ o, o < 256 → (natToChars o).all isDigitCh = true := by
  decide

theorem natToChars_ne_nil : ∀ o, o < 256 → natToChars o ≠ [] := by
  decide

theorem pyInt_natToChars : ∀ o, o < 256 → pyInt (natToChars o) = some (o : Int) := by
  decide

theorem pfxFromPfxString_natToChars : ∀ p, p ≤ 32 →
    pfxFromPfxString (natToChars p) = some p := by
  decide

theorem bitLen_two_pow_sub_one : ∀ h, h ≤ 32 → bitLen (2 ^ h - 1) = h := by
  decide

/-! ### Bit arithmetic of masks, networks and broadcasts -/

theorem allOnes_eq : (0xFFFFFFFF : Nat) = 2 ^ 32 - 1 := by norm_num

theorem allOnes_shiftRight {p : Nat} (h : p ≤ 32) :
    (0xFFFFFFFF : Nat) >>> p = 2 ^ (32 - p) - 1 := by
  apply Nat.eq_of_testBit_eq
  intro i
  rw [Nat.testBit_shiftRight, allOnes_eq, Nat.testBit_two_pow_sub_one,
    Nat.testBit_two_pow_sub_one, decide_eq_decide]
  omega

theorem testBit_netmaskOfPfx {p : Nat} (h : p ≤ 32) (i : Nat) :
    (netmaskOfPfx p).testBit i = decide (32 - p ≤ i ∧ i < 32) := by
  unfold netmaskOfPfx
  rw [Nat.testBit_xor, allOnes_shiftRight h, allOnes_eq,
    Nat.testBit_two_pow_sub_one, Nat.testBit_two_pow_sub_one]
  by_cases h1 : i < 32 - p <;> by_cases h2 : i < 32 <;>
    simp [h1, h2] <;> omega

theorem netmaskOfPfx_eq {p : Nat} (h : p ≤ 32) :
    netmaskOfPfx p = (2 ^ p - 1) * 2 ^ (32 - p) := by
  apply Nat.eq_of_testBit_eq
  intro i
  rw [testBit_netmaskOfPfx h, Nat.mul_comm, Nat.testBit_mul_pow_two,
    Nat.testBit_two_pow_sub_one]
  by_cases h1 : 32 - p ≤ i <;> by_cases h2 : i - (32 - p) < p <;>
    simp [h1, h2] <;> omega

theorem hostmaskOfPfx_eq {p : Nat} (h : p ≤ 32) :
    hostmaskOfPfx p = 2 ^ (32 - p) - 1 := by
  unfold hostmaskOfPfx netmaskOfPfx
  rw [← Nat.xor_assoc, Nat.xor_self, Nat.zero_xor, allOnes_shiftRight h]

theorem netmaskOfPfx_lt (p : Nat) : netmaskOfPfx p < 2 ^ 32 := by
  unfold netmaskOfPfx
  apply Nat.xor_lt_two_pow (by norm_num)
  calc 0xFFFFFFFF >>> p ≤ 0xFFFFFFFF := by
        rw [Nat.shiftRight_eq_div_pow]
        exact Nat.div_le_self _ _
    _ < 2 ^ 32 := by norm_num

theorem networkOf_eq {ip p : Nat} (hip : ip < 2 ^ 32) (hp : p ≤ 32) :
    networkOf ip p = 2 ^ (32 - p) * (ip / 2 ^ (32 - p)) := by
  apply Nat.eq_of_testBit_eq
  intro i
  unfold networkOf
  have hdiv : ip / 2 ^ (32 - p) = ip >>> (32 - p) :=
    (Nat.shiftRight_eq_div_pow ip _).symm
  rw [Nat.testBit_and, testBit_netmaskOfPfx hp, hdiv, Nat.testBit_mul_pow_two,
    Nat.testBit_shiftRight]
  by_cases h1 : 32 - p ≤ i
  · have he : 32 - p + (i - (32 - p)) = i := by omega
    rw [he]
    by_cases h2 : i < 32
    · simp [h1, h2]
    · have : ip.testBit i = false := by
        apply Nat.testBit_lt_two_pow
        calc ip < 2 ^ 32 := hip
          _ ≤ 2 ^ i := Nat.pow_le_pow_right (by norm_num) (by omega)
      simp [this, h2]
  · simp [h1, fun hc : 32 - p ≤ i ∧ i < 32 => h1 hc.1]

theorem broadcastOf_eq {ip p : Nat} (hip : ip < 2 ^ 32) (hp : p ≤ 32) :
    broadcastOf ip p = networkOf ip p + (2 ^ (32 - p) - 1) := by
  unfold broadcastOf
  rw [hostmaskOfPfx_eq hp]
  conv_lhs => rw [networkOf_eq hip hp]
  conv_rhs => rw [networkOf_eq hip hp]
  exact (Nat.mul_add_lt_is_or
    (Nat.sub_lt (Nat.two_pow_pos _) Nat.one_pos) _).symm

theorem networkOf_le (ip p : Nat) : networkOf ip p ≤ ip := Nat.and_le_left

theorem le_broadcastOf {ip p : Nat} (hip : ip < 2 ^ 32) (hp : p ≤ 32) :
    ip ≤ broadcastOf ip p := by
  rw [broadcastOf_eq hip hp, networkOf_eq hip hp]
  have h1 := Nat.div_add_mod ip (2 ^ (32 - p))
  have h2 : ip % 2 ^ (32 - p) < 2 ^ (32 - p) := Nat.mod_lt _ (Nat.two_pow_pos _)
  set A := 2 ^ (32 - p) with hA
  set D := A * (ip / A) with hD
  omega

theorem broadcastOf_lt {ip p : Nat} (hip : ip < 2 ^ 32) (hp : p ≤ 32) :
    broadcastOf ip p < 2 ^ 32 := by
  unfold broadcastOf
  apply Nat.or_lt_two_pow
  · exact Nat.lt_of_le_of_lt (networkOf_le ip p) hip
  · rw [hostmaskOfPfx_eq hp]
    calc 2 ^ (32 - p) - 1 < 2 ^ (32 - p) :=
        Nat.sub_lt (Nat.two_pow_pos _) Nat.one_pos
      _ ≤ 2 ^ 32 := Nat.pow_le_pow_right (by norm_num) (by omega)

theorem networkOf_32 {ip : Nat} (hip : ip < 2 ^ 32) : networkOf ip 32 = ip := by
  unfold networkOf netmaskOfPfx
  have h1 : (0xFFFFFFFF : Nat) >>> 32 = 0 := by decide
  rw [h1, Nat.xor_zero, allOnes_eq, Nat.and_pow_two_sub_one_eq_mod,
    Nat.mod_eq_of_lt hip]

theorem broadcastOf_32 {ip : Nat} (hip : ip < 2 ^ 32) : broadcastOf ip 32 = ip := by
  unfold broadcastOf
  rw [hostmaskOfPfx_eq (by omega)]
  norm_num
  exact networkOf_32 hip

theorem totalOf_eq (p : Nat) : totalOf p = 2 ^ (32 - p) := Nat.one_shiftLeft _

/-! ### Round trip between 32-bit values and their dotted rendering -/

theorem and_ff_lt (m : Nat) : m &&& 0xFF < 256 := by
  have h : (0xFF : Nat) = 2 ^ 8 - 1 := by norm_num
  rw [h, Nat.and_pow_two_sub_one_eq_mod]
  exact Nat.mod_lt _ (by norm_num)

theorem splitCh_renderQuad {a b c d : Nat} (ha : a < 256) (hb : b < 256)
    (hc : c < 256) (hd : d < 256) :
    splitCh '.' (renderQuad a b c d) =
      [natToChars a, natToChars b, natToChars c, natToChars d] := by
  have hna := not_mem_of_all_digits (c := '.') (natToChars_digits a ha) (by decide)
  have hnb := not_mem_of_all_digits (c := '.') (natToChars_digits b hb) (by decide)
  have hnc := not_mem_of_all_digits (c := '.') (natToChars_digits c hc) (by decide)
  have hnd := not_mem_of_all_digits (c := '.') (natToChars_digits d hd) (by decide)
  unfold renderQuad
  rw [splitCh_append_sep hna, splitCh_append_sep hnb, splitCh_append_sep hnc,
    splitCh_of_not_mem hnd]

theorem ipIntFromString_intToIp {n : Nat} (h : n < 2 ^ 32) :
    ipIntFromString (intToIp n) = some n := by
  unfold intToIp ipIntFromString
  rw [splitCh_renderQuad (and_ff_lt _) (and_ff_lt _) (and_ff_lt _) (and_ff_lt _)]
  simp only [parseOctet_natToChars _ (and_ff_lt _)]
  have hFF : (0xFF : Nat) = 2 ^ 8 - 1 := by norm_num
  simp only [hFF, Nat.and_pow_two_sub_one_eq_mod, Nat.shiftRight_eq_div_pow,
    Option.some.injEq]
  omega

/-! ### Netmask-pattern recognition, characterised -/

theorem bitLenAux_le {fuel : Nat} : ∀ {v i : Nat}, v < 2 ^ i → bitLenAux fuel v ≤ i := by
  induction fuel with
  | zero => intro v i h; exact Nat.zero_le i
  | succ f ih =>
    intro v i h
    unfold bitLenAux
    by_cases hv : v = 0
    · simp [hv]
    · rw [if_neg hv]
      cases i with
      | zero =>
        have h1 : (2 : Nat) ^ 0 = 1 := rfl
        omega
      | succ j =>
        have h2 : v / 2 < 2 ^ j := by
          rw [Nat.pow_succ] at h
          omega
        exact Nat.succ_le_succ (ih h2)

theorem testBit_pred_of_odd {q : Nat} (hq : q % 2 = 1) {k : Nat} (hk : 1 ≤ k) :
    (q - 1).testBit k = q.testBit k := by
  cases k with
  | zero => omega
  | succ j =>
    rw [Nat.testBit_add_one, Nat.testBit_add_one]
    congr 1
    omega

theorem two_pow_dvd_of_countRighthand {m : Nat} (hm0 : m ≠ 0) (hm : m < 2 ^ 32) :
    2 ^ countRighthandZeroBits m 32 ∣ m := by
  obtain ⟨t, q, hq, rfl⟩ := Nat.exists_eq_two_pow_mul_odd hm0
  have hqodd : q % 2 = 1 := Nat.odd_iff.mp hq
  have hv : (0xFFFFFFFF ^^^ (2 ^ t * q)) &&& (2 ^ t * q - 1) < 2 ^ t := by
    apply Nat.lt_pow_two_of_testBit
    intro j hj
    rw [Nat.testBit_and, Nat.testBit_xor]
    have hmj : (2 ^ t * q).testBit j = q.testBit (j - t) := by
      rw [Nat.testBit_mul_pow_two]
      simp [hj]
    by_cases h32 : j < 32
    · have hFFj : (0xFFFFFFFF : Nat).testBit j = true := by
        rw [allOnes_eq, Nat.testBit_two_pow_sub_one]
        simpa using h32
      have hm1 : (2 ^ t * q - 1).testBit j = (q - 1).testBit (j - t) := by
        have hq1 : 1 ≤ q := by omega
        have hsub : 2 ^ t * q - 1 = 2 ^ t * (q - 1) + (2 ^ t - 1) := by
          rw [Nat.mul_sub_left_distrib]
          have h2 : 2 ^ t * 1 ≤ 2 ^ t * q := Nat.mul_le_mul_left _ hq1
          have h3 : 0 < 2 ^ t := Nat.two_pow_pos t
          omega
        rw [hsub, Nat.testBit_mul_pow_two_add _
          (Nat.sub_lt (Nat.two_pow_pos _) Nat.one_pos),
          if_neg (by omega : ¬ j < t)]
      rw [hFFj, hmj, hm1]
      by_cases hjt : j = t
      · have hjt0 : j - t = 0 := by omega
        have hq0 : q.testBit (j - t) = true := by
          rw [hjt0]
          simp [Nat.testBit_zero, hqodd]
        rw [hq0]
        simp
      · rw [testBit_pred_of_odd hqodd (by omega : 1 ≤ j - t)]
        cases q.testBit (j - t) <;> simp
    · have hFFj : (0xFFFFFFFF : Nat).testBit j = false := by
        rw [allOnes_eq, Nat.testBit_two_pow_sub_one]
        simpa using h32
      have hmja : (2 ^ t * q).testBit j = false := by
        apply Nat.testBit_lt_two_pow
        exact lt_of_lt_of_le hm (Nat.pow_le_pow_right (by norm_num) (by omega))
      rw [hFFj, hmja]
      simp
  unfold countRighthandZeroBits
  rw [if_neg hm0]
  have hle : bitLen ((0xFFFFFFFF ^^^ (2 ^ t * q)) &&& (2 ^ t * q - 1)) ≤ t :=
    bitLenAux_le hv
  calc 2 ^ min 32 (bitLen ((0xFFFFFFFF ^^^ (2 ^ t * q)) &&& (2 ^ t * q - 1)))
      ∣ 2 ^ t := Nat.pow_dvd_pow 2 (le_trans (Nat.min_le_right _ _) hle)
    _ ∣ 2 ^ t * q := Nat.dvd_mul_right _ _

theorem countRighthand_le (m : Nat) (hm0 : m ≠ 0) :
    countRighthandZeroBits m 32 ≤ 32 := by
  unfold countRighthandZeroBits
  rw [if_neg hm0]
  exact Nat.min_le_left _ _

theorem pfxFromIpInt_zero : pfxFromIpInt 0 = some 0 := by decide

theorem pfxFromIpInt_iff {m p : Nat} (hm : m < 2 ^ 32) :
    pfxFromIpInt m = some p ↔ (p ≤ 32 ∧ m = (2 ^ p - 1) * 2 ^ (32 - p)) := by
  constructor
  · intro h
    by_cases hm0 : m = 0
    · subst hm0
      rw [pfxFromIpInt_zero, Option.some_inj] at h
      subst h
      exact ⟨by omega, by norm_num⟩
    · have hdvd := two_pow_dvd_of_countRighthand hm0 hm
      have htz := countRighthand_le m hm0
      unfold pfxFromIpInt at h
      simp only [] at h
      split at h
      · rename_i hcond
        rw [Option.some_inj] at h
        subst h
        refine ⟨by omega, ?_⟩
        have hmod : m % 2 ^ countRighthandZeroBits m 32 = 0 :=
          Nat.mod_eq_zero_of_dvd hdvd
        have hdm := Nat.div_add_mod m (2 ^ countRighthandZeroBits m 32)
        rw [Nat.shiftRight_eq_div_pow] at hcond
        have he : 32 - (32 - countRighthandZeroBits m 32) =
            countRighthandZeroBits m 32 := by omega
        rw [he, Nat.mul_comm]
        rw [hcond] at hdm
        omega
      · cases h
  · rintro ⟨hp, rfl⟩
    by_cases hp0 : p = 0
    · subst hp0
      norm_num
      exact pfxFromIpInt_zero
    · have hX1 : 1 ≤ 2 ^ p - 1 := by
        have : (2 : Nat) ^ 1 ≤ 2 ^ p := Nat.pow_le_pow_right (by norm_num) (by omega)
        omega
      have hB : 0 < 2 ^ (32 - p) := Nat.two_pow_pos _
      have hm0 : (2 ^ p - 1) * 2 ^ (32 - p) ≠ 0 := by positivity
      have hxor : 0xFFFFFFFF ^^^ (2 ^ p - 1) * 2 ^ (32 - p) = 2 ^ (32 - p) - 1 := by
        rw [← netmaskOfPfx_eq hp]
        have : 0xFFFFFFFF ^^^ netmaskOfPfx p = hostmaskOfPfx p := rfl
        rw [this, hostmaskOfPfx_eq hp]
      have hpred : (2 ^ p - 1) * 2 ^ (32 - p) - 1 =
          2 ^ (32 - p) * ((2 ^ p - 1) - 1) + (2 ^ (32 - p) - 1) := by
        rw [Nat.mul_sub_left_distrib]
        have h2 : 2 ^ (32 - p) * 1 ≤ 2 ^ (32 - p) * (2 ^ p - 1) :=
          Nat.mul_le_mul_left _ hX1
        have h3 : 2 ^ (32 - p) * (2 ^ p - 1) = (2 ^ p - 1) * 2 ^ (32 - p) :=
          Nat.mul_comm _ _
        omega
      have hand : (0xFFFFFFFF ^^^ (2 ^ p - 1) * 2 ^ (32 - p)) &&&
          ((2 ^ p - 1) * 2 ^ (32 - p) - 1) = 2 ^ (32 - p) - 1 := by
        rw [hxor, Nat.and_comm, Nat.and_pow_two_sub_one_eq_mod, hpred,
          Nat.mul_add_mod, Nat.mod_eq_of_lt (Nat.sub_lt hB Nat.one_pos)]
      have htz : countRighthandZeroBits ((2 ^ p - 1) * 2 ^ (32 - p)) 32 = 32 - p := by
        unfold countRighthandZeroBits
        rw [if_neg hm0, hand, bitLen_two_pow_sub_one _ (by omega)]
        omega
      unfold pfxFromIpInt
      simp only [htz]
      have he2 : 32 - (32 - p) = p := by omega
      rw [he2, Nat.shiftRight_eq_div_pow, Nat.mul_div_cancel _ hB, if_pos rfl]

theorem pfxFromIpInt_netmask_iff {m p : Nat} (hm : m < 2 ^ 32) :
    pfxFromIpInt m = some p ↔ (p ≤ 32 ∧ m = netmaskOfPfx p) := by
  rw [pfxFromIpInt_iff hm]
  constructor
  · rintro ⟨h1, h2⟩
    exact ⟨h1, by rw [netmaskOfPfx_eq h1]; exact h2⟩
  · rintro ⟨h1, h2⟩
    exact ⟨h1, by rw [← netmaskOfPfx_eq h1]; exact h2⟩

theorem xor_allOnes_cancel (x : Nat) : (x ^^^ 0xFFFFFFFF) ^^^ 0xFFFFFFFF = x := by
  rw [Nat.xor_assoc, Nat.xor_self, Nat.xor_zero]

theorem xor_allOnes_lt {x : Nat} (h : x < 2 ^ 32) : x ^^^ 0xFFFFFFFF < 2 ^ 32 :=
  Nat.xor_lt_two_pow h (by norm_num)

theorem hostmask_iff_xor {m p : Nat} :
    m = hostmaskOfPfx p ↔ m ^^^ 0xFFFFFFFF = netmaskOfPfx p := by
  unfold hostmaskOfPfx
  constructor
  · rintro rfl
    rw [Nat.xor_comm 0xFFFFFFFF, xor_allOnes_cancel]
  · intro h
    rw [← xor_allOnes_cancel m, h, Nat.xor_comm]

theorem parseOctet_le {s : List Char} {o : Nat} (h : parseOctet s = some o) :
    o ≤ 255 := by
  unfold parseOctet at h
  split_ifs at h with h1 h2 h3 h4 h5 <;> try cases h
  · omega

theorem ipIntFromString_lt {s : List Char} {a : Nat}
    (h : ipIntFromString s = some a) : a < 2 ^ 32 := by
  unfold ipIntFromString at h
  split at h <;> try cases h
  split at h <;> try cases h
  rename_i p0 p1 p2 p3 o0 o1 o2 o3 e0 e1 e2 e3
  have b0 := parseOctet_le e0
  have b1 := parseOctet_le e1
  have b2 := parseOctet_le e2
  have b3 := parseOctet_le e3
  omega

/-! ### Character classes of rendered addresses -/

theorem all_digits_false_of_mem {s : List Char} {c : Char} (h : c ∈ s)
    (hc : isDigitCh c = false) : s.all isDigitCh = false := by
  cases hb : s.all isDigitCh
  · rfl
  · exact absurd h (not_mem_of_all_digits hb hc)

theorem renderQuad_chars {a b d e : Nat} (ha : a < 256) (hb : b < 256)
    (hd : d < 256) (he : e < 256) {c : Char} (h : c ∈ renderQuad a b d e) :
    isDigitCh c = true ∨ c = '.' := by
  unfold renderQuad at h
  rcases List.mem_append.mp h with h1 | h1
  · exact Or.inl (List.all_eq_true.mp (natToChars_digits a ha) c h1)
  · rcases List.mem_cons.mp h1 with rfl | h2
    · exact Or.inr rfl
    · rcases List.mem_append.mp h2 with h3 | h3
      · exact Or.inl (List.all_eq_true.mp (natToChars_digits b hb) c h3)
      · rcases List.mem_cons.mp h3 with rfl | h4
        · exact Or.inr rfl
        · rcases List.mem_append.mp h4 with h5 | h5
          · exact Or.inl (List.all_eq_true.mp (natToChars_digits d hd) c h5)
          · rcases List.mem_cons.mp h5 with rfl | h6
            · exact Or.inr rfl
            · exact Or.inl (List.all_eq_true.mp (natToChars_digits e he) c h6)

theorem intToIp_chars {n : Nat} {c : Char} (h : c ∈ intToIp n) :
    isDigitCh c = true ∨ c = '.' :=
  renderQuad_chars (and_ff_lt _) (and_ff_lt _) (and_ff_lt _) (and_ff_lt _) h

theorem noSpace_intToIp (n : Nat) : ∀ c ∈ intToIp n, isPySpace c = false := by
  intro c hc
  rcases intToIp_chars hc with h | rfl
  · exact isPySpace_of_digit h
  · decide

theorem pyStrip_intToIp (n : Nat) : pyStrip (intToIp n) = intToIp n :=
  pyStrip_eq_self (noSpace_intToIp n)

theorem slash_not_mem_intToIp (n : Nat) : '/' ∉ intToIp n := by
  intro h
  rcases intToIp_chars h with h1 | h1
  · exact absurd h1 (by decide)
  · exact absurd h1 (by decide)

theorem dot_mem_intToIp (n : Nat) : '.' ∈ intToIp n := by
  unfold intToIp renderQuad
  exact List.mem_append.mpr (Or.inr (List.mem_cons_self _ _))

theorem noSpace_natToChars {o : Nat} (ho : o < 256) :
    ∀ c ∈ natToChars o, isPySpace c = false := fun c hc =>
  isPySpace_of_digit (List.all_eq_true.mp (natToChars_digits o ho) c hc)

theorem slash_not_mem_natToChars {o : Nat} (ho : o < 256) :
    '/' ∉ natToChars o :=
  not_mem_of_all_digits (natToChars_digits o ho) (by decide)

theorem intToIp_head_ne_slash (n : Nat) : (intToIp n).head? ≠ some '/' := by
  intro heq
  have hmem : '/' ∈ intToIp n := by
    cases hl : intToIp n with
    | nil => rw [hl] at heq; cases heq
    | cons x xs =>
      rw [hl] at heq
      simp only [List.head?_cons, Option.some_inj] at heq
      rw [heq]
      exact List.mem_cons_self _ _
  exact slash_not_mem_intToIp n hmem

/-! ### The dotted-mask recogniser on rendered masks -/

theorem pfxFromPfxString_of_dot {s : List Char} (h : '.' ∈ s) :
    pfxFromPfxString s = none := by
  unfold pfxFromPfxString
  rw [all_digits_false_of_mem h (by decide)]
  simp

theorem hostmask_eq_netmask {p q : Nat} (hp : p ≤ 32) (hq : q ≤ 32)
    (h : hostmaskOfPfx p = netmaskOfPfx q) :
    hostmaskOfPfx p = 0 ∨ hostmaskOfPfx p = 0xFFFFFFFF := by
  rw [hostmaskOfPfx_eq hp] at h ⊢
  rw [netmaskOfPfx_eq hq] at h
  by_cases hp32 : p = 32
  · left
    subst hp32
    norm_num
  · right
    by_cases hq32 : q = 32
    · subst hq32
      rw [h]
      norm_num
    · exfalso
      have hodd : (2 ^ (32 - p) - 1) % 2 = 1 := by
        have h2 : (2 : Nat) ∣ 2 ^ (32 - p) := dvd_pow_self 2 (by omega)
        have h3 : 0 < 2 ^ (32 - p) := Nat.two_pow_pos _
        omega
      have heven : ((2 ^ q - 1) * 2 ^ (32 - q)) % 2 = 0 := by
        have h2 : (2 : Nat) ∣ (2 ^ q - 1) * 2 ^ (32 - q) :=
          Dvd.dvd.mul_left (dvd_pow_self 2 (by omega)) _
        omega
      omega

theorem makeNetmaskE_intToIp_iff {m p : Nat} (hm : m < 2 ^ 32) :
    makeNetmaskE (intToIp m) = .ok p ↔
      p ≤ 32 ∧ (m = netmaskOfPfx p ∨
        (m = hostmaskOfPfx p ∧ m ≠ 0 ∧ m ≠ 0xFFFFFFFF)) := by
  have h1 : pfxFromPfxString (intToIp m) = none :=
    pfxFromPfxString_of_dot (dot_mem_intToIp m)
  have h2 : ipIntFromString (intToIp m) = some m := ipIntFromString_intToIp hm
  have h3 : (intToIp m).all isDigitCh = false :=
    all_digits_false_of_mem (dot_mem_intToIp m) (by decide)
  have hmFF : m ^^^ 0xFFFFFFFF < 2 ^ 32 := xor_allOnes_lt hm
  simp only [makeNetmaskE, pfxFromIpString, h1, h2, h3, Bool.and_false,
    Bool.false_eq_true, if_false]
  rcases hnm : pfxFromIpInt m with _ | q
  · rcases hhm : pfxFromIpInt (m ^^^ 0xFFFFFFFF) with _ | q'
    · constructor
      · intro h
        cases h
      · rintro ⟨hp, hml | ⟨hml, h0, hFFne⟩⟩
        · rw [(pfxFromIpInt_netmask_iff hm).mpr ⟨hp, hml⟩] at hnm
          cases hnm
        · have he : pfxFromIpInt (m ^^^ 0xFFFFFFFF) = some p :=
            (pfxFromIpInt_netmask_iff hmFF).mpr ⟨hp, hostmask_iff_xor.mp hml⟩
          rw [he] at hhm
          cases hhm
    · have hq' := (pfxFromIpInt_netmask_iff hmFF).mp hhm
      simp only [Except.ok.injEq]
      constructor
      · rintro rfl
        refine ⟨hq'.1, Or.inr ⟨hostmask_iff_xor.mpr hq'.2, ?_, ?_⟩⟩
        · rintro rfl
          rw [pfxFromIpInt_zero] at hnm
          cases hnm
        · rintro rfl
          have hFF32 : pfxFromIpInt 0xFFFFFFFF = some 32 := by decide
          rw [hFF32] at hnm
          cases hnm
      · rintro ⟨hp, hml | ⟨hml, h0, hFFne⟩⟩
        · rw [(pfxFromIpInt_netmask_iff hm).mpr ⟨hp, hml⟩] at hnm
          cases hnm
        · have he : pfxFromIpInt (m ^^^ 0xFFFFFFFF) = some p :=
            (pfxFromIpInt_netmask_iff hmFF).mpr ⟨hp, hostmask_iff_xor.mp hml⟩
          rw [he] at hhm
          exact (Option.some_inj.mp hhm).symm
  · have hq := (pfxFromIpInt_netmask_iff hm).mp hnm
    simp only [Except.ok.injEq]
    constructor
    · rintro rfl
      exact ⟨hq.1, Or.inl hq.2⟩
    · rintro ⟨hp, hml | ⟨hml, h0, hFFne⟩⟩
      · have he : pfxFromIpInt m = some p :=
          (pfxFromIpInt_netmask_iff hm).mpr ⟨hp, hml⟩
        rw [he] at hnm
        exact (Option.some_inj.mp hnm).symm
      · exfalso
        have hhn : hostmaskOfPfx p = netmaskOfPfx q := by
          rw [← hml, hq.2]
        rcases hostmask_eq_netmask hp hq.1 hhn with h0' | hFF'
        · exact h0 (by rw [hml, h0'])
        · exact hFFne (by rw [hml, hFF'])

/-! ### Reductions of the parsing entry points -/

theorem parseOctet_of_mem {s : List Char} {c : Char} (hmem : c ∈ s)
    (hc : isDigitCh c = false) : parseOctet s = none := by
  have hne : ¬(s = []) := by rintro rfl; cases hmem
  have hall : s.all isDigitCh = false := all_digits_false_of_mem hmem hc
  unfold parseOctet
  rw [if_neg hne, hall]
  simp

theorem ipIntFromString_of_slash {s : List Char} (h : '/' ∈ s) :
    ipIntFromString s = none := by
  rcases mem_splitCh_of_mem (c := '.') h (by decide) with ⟨t, ht, hat⟩
  unfold ipIntFromString
  split
  · rename_i a b c d heq
    rw [heq] at ht
    have hnone : parseOctet t = none := parseOctet_of_mem hat (by decide)
    simp only [List.mem_cons, List.not_mem_nil, or_false] at ht
    rcases ht with rfl | rfl | rfl | rfl
    · simp [hnone]
    · rcases hpa : parseOctet a with _ | o0 <;> simp [hnone, hpa]
    · rcases hpa : parseOctet a with _ | o0 <;>
        rcases hpb : parseOctet b with _ | o1 <;> simp [hnone, hpa, hpb]
    · rcases hpa : parseOctet a with _ | o0 <;>
        rcases hpb : parseOctet b with _ | o1 <;>
        rcases hpc : parseOctet c with _ | o2 <;> simp [hnone, hpa, hpb, hpc]
  · rfl

theorem pyStrip_sep_append {s t : List Char} (hs : ∀ c ∈ s, isPySpace c = false)
    (ht : ∀ c ∈ t, isPySpace c = false) :
    pyStrip (s ++ '/' :: t) = s ++ '/' :: t := by
  apply pyStrip_eq_self
  intro c hc
  rcases List.mem_append.mp hc with h | h
  · exact hs c h
  · rcases List.mem_cons.mp h with rfl | h
    · decide
    · exact ht c h

theorem ipInterfaceV4_combined {a : Nat} {t : List Char} (ha : a < 2 ^ 32)
    (ht : '/' ∉ t) :
    ipInterfaceV4 (intToIp a ++ '/' :: t) =
      match makeNetmaskE t with
      | .ok p => .ok (a, p)
      | .error e => .error e := by
  unfold ipInterfaceV4
  rw [splitCh_append_sep (slash_not_mem_intToIp a), splitCh_of_not_mem ht]
  simp only [ipIntFromString_intToIp ha]

theorem parseIpAndMask_combined {a : Nat} {t : List Char} (ha : a < 2 ^ 32)
    (ht : '/' ∉ t) (htsp : ∀ c ∈ t, isPySpace c = false) :
    parseIpAndMask (intToIp a ++ '/' :: t) none =
      match makeNetmaskE t with
      | .ok p => .ok (a, p)
      | .error e => .error e := by
  unfold parseIpAndMask
  have hmem : '/' ∈ intToIp a ++ '/' :: t :=
    List.mem_append.mpr (Or.inr (List.mem_cons_self _ _))
  simp only [pyStrip_sep_append (noSpace_intToIp a) htsp, contains_eq_true hmem,
    Option.isNone_none, Bool.and_self, if_true]
  exact ipInterfaceV4_combined ha ht

theorem parseIpAndMask_some_mask {a : Nat} {t : List Char} (ha : a < 2 ^ 32)
    (htsp : ∀ c ∈ t, isPySpace c = false) (hhead : t.head? ≠ some '/')
    (hns : '/' ∉ t) :
    parseIpAndMask (intToIp a) (some t) =
      match makeNetmaskE t with
      | .ok p => .ok (a, p)
      | .error e => .error e := by
  unfold parseIpAndMask
  simp only [pyStrip_intToIp, Option.isNone_some, Bool.and_false,
    Bool.false_eq_true, if_false, ipIntFromString_intToIp ha,
    pyStrip_eq_self htsp, contains_eq_false hns]
  rw [if_neg hhead]

theorem makeNetmaskE_natToChars {p : Nat} (hp : p ≤ 32) :
    makeNetmaskE (natToChars p) = .ok p := by
  unfold makeNetmaskE
  rw [pfxFromPfxString_natToChars p hp]

theorem mem_of_contains {a : Char} {l : List Char} (h : l.contains a = true) :
    a ∈ l := by
  rcases List.contains_iff_exists_mem_beq.mp h with ⟨a', ha', he⟩
  rw [show a = a' from by simpa using he]
  exact ha'

/-! ### The computation record and the manual bitwise path -/

theorem computeSubnet_eq {ip p : Nat} (hip : ip < 2 ^ 32) (hp : p ≤ 32) :
    computeSubnet ip p = some {
      ip := intToIp ip
      cidr := p
      network := intToIp (networkOf ip p)
      broadcast := intToIp (broadcastOf ip p)
      netmask := intToIp (netmaskOfPfx p)
      wildcard := intToIp (wildcardFromNetmask (netmaskOfPfx p))
      first_host := intToIp (firstHostOf ip p)
      last_host := intToIp (lastHostOf ip p)
      total_hosts := totalOf p
      usable_hosts := usableOf p
      host_bits := 32 - p } := by
  unfold computeSubnet
  rw [if_pos ⟨hip, hp⟩]

theorem netmaskOfPfx_zero : netmaskOfPfx 0 = 0 := by decide

theorem and_allOnes_of_lt {x : Nat} (h : x < 2 ^ 32) : x &&& 0xFFFFFFFF = x := by
  rw [allOnes_eq, Nat.and_pow_two_sub_one_eq_mod, Nat.mod_eq_of_lt h]

theorem manual_mask_eq {p : Nat} (hp : p ≤ 32) :
    (if p > 0 then (0xFFFFFFFF <<< (32 - p)) &&& 0xFFFFFFFF else 0) =
      netmaskOfPfx p := by
  by_cases h0 : p = 0
  · subst h0
    rw [if_neg (by omega)]
    exact netmaskOfPfx_zero.symm
  · rw [if_pos (by omega), Nat.shiftLeft_eq, allOnes_eq,
      Nat.and_pow_two_sub_one_eq_mod, netmaskOfPfx_eq hp]
    have hA : 0 < 2 ^ (32 - p) := Nat.two_pow_pos _
    have hAC : 2 ^ (32 - p) ≤ 2 ^ 32 := Nat.pow_le_pow_right (by norm_num) (by omega)
    have hAB : 2 ^ p * 2 ^ (32 - p) = 2 ^ 32 := by
      rw [← pow_add]
      congr 1
      omega
    have hCP : 2 ^ 32 * 1 ≤ 2 ^ 32 * 2 ^ (32 - p) := Nat.mul_le_mul_left _ hA
    have e1 : (2 ^ 32 - 1) * 2 ^ (32 - p) =
        2 ^ 32 * (2 ^ (32 - p) - 1) + (2 ^ 32 - 2 ^ (32 - p)) := by
      rw [Nat.mul_sub_right_distrib, Nat.mul_sub_left_distrib]
      omega
    rw [e1, Nat.mul_add_mod, Nat.mod_eq_of_lt (by omega),
      Nat.mul_sub_right_distrib]
    omega

theorem hostmask_shiftLeft_eq {p : Nat} (hp : p ≤ 32) :
    (1 <<< (32 - p)) - 1 = hostmaskOfPfx p := by
  rw [Nat.one_shiftLeft, hostmaskOfPfx_eq hp]

theorem manualComputeSubnet_eq {s : List Char} {a p : Nat}
    (hs : ipIntFromString s = some a) (hp : p ≤ 32) :
    manualComputeSubnet s ('/' :: natToChars p) = v4ComputeSubnet a p := by
  have ha : a < 2 ^ 32 := ipIntFromString_lt hs
  have hb : broadcastOf a p < 2 ^ 32 := broadcastOf_lt ha hp
  unfold manualComputeSubnet
  simp only [hs, List.head?_cons, List.tail_cons, if_pos rfl,
    pyInt_natToChars p (by omega : p < 256)]
  rw [if_pos (show (0 : Int) ≤ (p : Int) ∧ (p : Int) ≤ 32 from
    ⟨Int.natCast_nonneg p, by exact_mod_cast hp⟩)]
  simp only [if_true, Int.toNat_natCast, Option.some_bind]
  rw [manual_mask_eq hp, hostmask_shiftLeft_eq hp]
  have hne : a &&& netmaskOfPfx p = networkOf a p := rfl
  rw [hne]
  have hbe : networkOf a p ||| hostmaskOfPfx p = broadcastOf a p := rfl
  rw [hbe, and_allOnes_of_lt hb]
  rw [Nat.xor_comm 0xFFFFFFFF (netmaskOfPfx p)]
  unfold v4ComputeSubnet computeSubnet
  rw [if_pos (show a < 2 ^ 32 ∧ p ≤ 32 from ⟨ha, hp⟩)]
  rfl

theorem makeNetmask_match_ok_iff {m a p : Nat} (hm : m < 2 ^ 32) :
    (match makeNetmaskE (intToIp m) with
      | .ok q => Except.ok (a, q)
      | .error e => (Except.error e : Except ParseError (Nat × Nat))) = .ok (a, p) ↔
      p ≤ 32 ∧ (m = netmaskOfPfx p ∨
        (m = hostmaskOfPfx p ∧ m ≠ 0 ∧ m ≠ 0xFFFFFFFF)) := by
  rcases hmk : makeNetmaskE (intToIp m) with e | q
  · simp only [hmk]
    constructor
    · intro h
      cases h
    · intro hr
      rw [(makeNetmaskE_intToIp_iff hm).mpr hr] at hmk
      cases hmk
  · simp only [hmk]
    constructor
    · intro h
      simp only [Except.ok.injEq, Prod.mk.injEq] at h
      rw [h.2] at hmk
      exact (makeNetmaskE_intToIp_iff hm).mp hmk
    · intro hr
      have h2 := (makeNetmaskE_intToIp_iff hm).mpr hr
      rw [hmk] at h2
      simp only [Except.ok.injEq] at h2
      rw [h2]

/-! ### The claims -/

/-- C1: compute applies the host-range policy by mask length.  For 32,
usable = 1 and first = last = network = broadcast = the address; for 31,
usable = 2 with first = network and last = broadcast; for every length in
[0,30], usable = total - 2, first = network + 1, last = broadcast - 1
(total is then at least 4, so the general branch applies). -/
theorem c1_host_range_policy (ip p : Nat) (hip : ip < 2 ^ 32) :
    (p = 32 → usableOf p = 1 ∧ firstHostOf ip p = ip ∧ lastHostOf ip p = ip ∧
      networkOf ip p = ip ∧ broadcastOf ip p = ip) ∧
    (p = 31 → usableOf p = 2 ∧ firstHostOf ip p = networkOf ip p ∧
      lastHostOf ip p = broadcastOf ip p) ∧
    (p ≤ 30 → usableOf p = totalOf p - 2 ∧ totalOf p ≥ 4 ∧
      firstHostOf ip p = networkOf ip p + 1 ∧
      lastHostOf ip p = broadcastOf ip p - 1) := by
  refine ⟨?_, ?_, ?_⟩
  · rintro rfl
    exact ⟨rfl, rfl, rfl, networkOf_32 hip, broadcastOf_32 hip⟩
  · rintro rfl
    exact ⟨rfl, rfl, rfl⟩
  · intro hp
    have h4 : totalOf p ≥ 4 := by
      rw [totalOf_eq]
      calc (4 : Nat) = 2 ^ 2 := rfl
        _ ≤ 2 ^ (32 - p) := Nat.pow_le_pow_right (by norm_num) (by omega)
    refine ⟨?_, h4, ?_, ?_⟩
    · unfold usableOf
      rw [if_neg (by omega), if_neg (by omega)]
      exact Nat.max_zero _
    · unfold firstHostOf
      rw [if_neg (by omega), if_neg (by omega), if_pos h4]
    · unfold lastHostOf
      rw [if_neg (by omega), if_neg (by omega), if_pos h4]

theorem c1_host_range_policy_witness :
    usableOf 24 = totalOf 24 - 2 ∧ totalOf 24 ≥ 4 ∧
    firstHostOf 3232235786 24 = networkOf 3232235786 24 + 1 ∧
    lastHostOf 3232235786 24 = broadcastOf 3232235786 24 - 1 :=
  (c1_host_range_policy 3232235786 24 (by norm_num)).2.2 (by norm_num)

/-- C2: compute is total on 32-bit addresses and mask lengths in [0,32]:
it always returns a record, whose total-address count is 2 ^ (32 - p)
(2 ^ 32 at mask length 0, 1 at mask length 32). -/
theorem c2_compute_total (ip p : Nat) (hip : ip < 2 ^ 32) (hp : p ≤ 32) :
    ∃ info, computeSubnet ip p = some info ∧ info.total_hosts = 2 ^ (32 - p) :=
  ⟨_, computeSubnet_eq hip hp, totalOf_eq p⟩

theorem c2_compute_total_witness :
    ∃ info, computeSubnet 0 0 = some info ∧ info.total_hosts = 2 ^ (32 - 0) :=
  c2_compute_total 0 0 (by norm_num) (by norm_num)

/-- C3: the record's derived values satisfy network = address AND mask,
masking is idempotent, network ≤ address ≤ broadcast, and broadcast is the
network with all 32 - p host bits set. -/
theorem c3_network_broadcast_invariants (ip p : Nat) (hip : ip < 2 ^ 32)
    (hp : p ≤ 32) :
    networkOf ip p = ip &&& netmaskOfPfx p ∧
    networkOf ip p &&& netmaskOfPfx p = networkOf ip p ∧
    networkOf ip p ≤ ip ∧
    ip ≤ broadcastOf ip p ∧
    broadcastOf ip p = networkOf ip p ||| (2 ^ (32 - p) - 1) ∧
    (∀ i, i < 32 - p → (broadcastOf ip p).testBit i = true) ∧
    (∀ i, 32 - p ≤ i → (broadcastOf ip p).testBit i = (networkOf ip p).testBit i) := by
  refine ⟨rfl, ?_, networkOf_le ip p, le_broadcastOf hip hp, ?_, ?_, ?_⟩
  · unfold networkOf
    rw [Nat.and_assoc, Nat.and_self]
  · unfold broadcastOf
    rw [hostmaskOfPfx_eq hp]
  · intro i hi
    unfold broadcastOf
    rw [Nat.testBit_or, hostmaskOfPfx_eq hp, Nat.testBit_two_pow_sub_one]
    simp [hi]
  · intro i hi
    unfold broadcastOf
    rw [Nat.testBit_or, hostmaskOfPfx_eq hp, Nat.testBit_two_pow_sub_one]
    simp [Nat.not_lt.mpr hi]

theorem c3_network_broadcast_invariants_witness :
    networkOf 3232235786 24 = 3232235786 &&& netmaskOfPfx 24 ∧
    networkOf 3232235786 24 &&& netmaskOfPfx 24 = networkOf 3232235786 24 ∧
    networkOf 3232235786 24 ≤ 3232235786 ∧
    3232235786 ≤ broadcastOf 3232235786 24 ∧
    broadcastOf 3232235786 24 = networkOf 3232235786 24 ||| (2 ^ (32 - 24) - 1) ∧
    (∀ i, i < 32 - 24 → (broadcastOf 3232235786 24).testBit i = true) ∧
    (∀ i, 32 - 24 ≤ i →
      (broadcastOf 3232235786 24).testBit i = (networkOf 3232235786 24).testBit i) :=
  c3_network_broadcast_invariants 3232235786 24 (by norm_num) (by norm_num)

/-- C4: parsing the combined "A/P" string and parsing A with the dotted
netmask of /P produce the same (address, mask length) pair, hence the same
computed record, for every 32-bit address and every P in [0,32]. -/
theorem c4_round_trip (a p : Nat) (ha : a < 2 ^ 32) (hp : p ≤ 32) :
    parseIpAndMask (intToIp a ++ '/' :: natToChars p) none = .ok (a, p) ∧
    parseIpAndMask (intToIp a) (some (intToIp (netmaskOfPfx p))) = .ok (a, p) ∧
    ∃ info, computeSubnet a p = some info := by
  have hp256 : p < 256 := by omega
  refine ⟨?_, ?_, ⟨_, computeSubnet_eq ha hp⟩⟩
  · rw [parseIpAndMask_combined ha (slash_not_mem_natToChars hp256)
      (noSpace_natToChars hp256), makeNetmaskE_natToChars hp]
  · rw [parseIpAndMask_some_mask ha (noSpace_intToIp _) (intToIp_head_ne_slash _)
      (slash_not_mem_intToIp _),
      (makeNetmaskE_intToIp_iff (netmaskOfPfx_lt p)).mpr ⟨hp, Or.inl rfl⟩]

theorem c4_round_trip_witness :
    parseIpAndMask (intToIp 3232235786 ++ '/' :: natToChars 24) none =
      .ok (3232235786, 24) ∧
    parseIpAndMask (intToIp 3232235786) (some (intToIp (netmaskOfPfx 24))) =
      .ok (3232235786, 24) ∧
    ∃ info, computeSubnet 3232235786 24 = some info :=
  c4_round_trip 3232235786 24 (by norm_num) (by norm_num)

/-- C5, counterexample: the dotted hostmask 0.0.0.255 is not a run of ones
followed by zeros from the most-significant bit (its value 255 has bit 0
set but bit 31 clear), yet parse accepts it, with mask length 24. -/
theorem c5_counterexample :
    parseIpAndMask (("1.2.3.4").data) (some (("0.0.0.255").data)) =
      .ok (16909060, 24) ∧
    (255 : Nat).testBit 0 = true ∧ (255 : Nat).testBit 31 = false := by
  refine ⟨rfl, by decide, by decide⟩

/-- C5, amended: a dotted mask is accepted exactly when its 32-bit pattern
is a netmask (ones then zeros; the mask length is the count of leading
ones) or a hostmask (zeros then ones, neither all-zero nor all-one, giving
the complementary length); 255.0.255.0 is still rejected with
NonContiguousMask. -/
theorem c5_dotted_mask_amended :
    (∀ a m p, a < 2 ^ 32 → m < 2 ^ 32 →
      (parseIpAndMask (intToIp a) (some (intToIp m)) = .ok (a, p) ↔
        p ≤ 32 ∧ (m = netmaskOfPfx p ∨
          (m = hostmaskOfPfx p ∧ m ≠ 0 ∧ m ≠ 0xFFFFFFFF)))) ∧
    parseIpAndMask (("1.2.3.4").data) (some (("255.0.255.0").data)) =
      .error .nonContiguousMask := by
  constructor
  · intro a m p ha hm
    rw [parseIpAndMask_some_mask ha (noSpace_intToIp _) (intToIp_head_ne_slash _)
      (slash_not_mem_intToIp _)]
    exact makeNetmask_match_ok_iff hm
  · rfl

theorem c5_dotted_mask_amended_witness :
    parseIpAndMask (intToIp 16909060) (some (intToIp 255)) = .ok (16909060, 24) :=
  (c5_dotted_mask_amended.1 16909060 255 24 (by norm_num) (by norm_num)).mpr
    ⟨by norm_num, Or.inr ⟨by decide, by decide, by decide⟩⟩

/-- C6, counterexample: in the combined form the right side
255.255.255.0 is not an integer at all, yet parse accepts the input with
mask length 24. -/
theorem c6_counterexample :
    parseIpAndMask (("1.2.3.4/255.255.255.0").data) none = .ok (16909060, 24) ∧
    pyInt (("255.255.255.0").data) = none := by
  constructor
  · rfl
  · rfl

/-- C6, amended: in the combined form the right side may be a decimal mask
length in [0,32] or a dotted netmask/hostmask; a dotted right side is
accepted exactly under the netmask-or-hostmask condition, and "/33" fails
with PrefixOutOfRange. -/
theorem c6_combined_amended :
    (∀ a p, a < 2 ^ 32 → p ≤ 32 →
      parseIpAndMask (intToIp a ++ '/' :: natToChars p) none = .ok (a, p)) ∧
    (∀ a m p, a < 2 ^ 32 → m < 2 ^ 32 →
      (parseIpAndMask (intToIp a ++ '/' :: intToIp m) none = .ok (a, p) ↔
        p ≤ 32 ∧ (m = netmaskOfPfx p ∨
          (m = hostmaskOfPfx p ∧ m ≠ 0 ∧ m ≠ 0xFFFFFFFF)))) ∧
    parseIpAndMask (("1.2.3.4/33").data) none = .error .pfxOutOfRange := by
  refine ⟨?_, ?_, by rfl⟩
  · intro a p ha hp
    rw [parseIpAndMask_combined ha (slash_not_mem_natToChars (by omega))
      (noSpace_natToChars (by omega)), makeNetmaskE_natToChars hp]
  · intro a m p ha hm
    rw [parseIpAndMask_combined ha (slash_not_mem_intToIp m) (noSpace_intToIp m)]
    exact makeNetmask_match_ok_iff hm

theorem c6_combined_amended_witness :
    parseIpAndMask (intToIp 16909060 ++ '/' :: natToChars 24) none =
      .ok (16909060, 24) :=
  c6_combined_amended.1 16909060 24 (by norm_num) (by norm_num)

/-- C7, counterexample: with an empty-string mask the combined form is not
applied: the same primary input parses under an absent mask but fails with
MalformedAddress under an empty-string mask. -/
theorem c7_counterexample :
    parseIpAndMask (("1.2.3.4/24").data) (some []) = .error .malformedAddress ∧
    parseIpAndMask (("1.2.3.4/24").data) none = .ok (16909060, 24) := by
  constructor
  · rfl
  · rfl

/-- C7, amended: only an absent mask argument triggers the combined form
(or MissingMask).  An empty-string mask is treated as a mask value: with a
slash in the primary input parse fails with MalformedAddress, and without
one it fails with MalformedAddress or MalformedMask — never MissingMask. -/
theorem c7_empty_mask_amended :
    (∀ s, (pyStrip s).contains '/' = true →
      parseIpAndMask s (some []) = .error .malformedAddress) ∧
    (∀ s, (pyStrip s).contains '/' = false →
      parseIpAndMask s (some []) = .error .malformedAddress ∨
      parseIpAndMask s (some []) = .error .malformedMask) ∧
    (∀ s, (pyStrip s).contains '/' = false →
      parseIpAndMask s none = .error .missingMask) ∧
    (∀ s, (pyStrip s).contains '/' = true →
      parseIpAndMask s none = ipInterfaceV4 (pyStrip s)) := by
  refine ⟨?_, ?_, ?_, ?_⟩
  · intro s hc
    have hmem : '/' ∈ pyStrip s := mem_of_contains hc
    unfold parseIpAndMask
    simp only [Option.isNone_some, Bool.and_false, Bool.false_eq_true, if_false,
      ipIntFromString_of_slash hmem]
  · intro s hc
    unfold parseIpAndMask
    simp only [Option.isNone_some, Bool.and_false, Bool.false_eq_true, if_false]
    rcases hip : ipIntFromString (pyStrip s) with _ | a
    · left
      simp [hip]
    · right
      simp only [hip]
      rfl
  · intro s hc
    unfold parseIpAndMask
    simp only [Option.isNone_none, Bool.and_true, hc, Bool.false_eq_true, if_false]
  · intro s hc
    unfold parseIpAndMask
    simp only [Option.isNone_none, Bool.and_true, hc, if_true]

theorem c7_empty_mask_amended_witness :
    parseIpAndMask (("5.6.7.8/16").data) (some []) = .error .malformedAddress ∧
    parseIpAndMask (("9.9.9.9").data) none = .error .missingMask :=
  ⟨c7_empty_mask_amended.1 (("5.6.7.8/16").data) (by rfl),
   c7_empty_mask_amended.2.2.1 (("9.9.9.9").data) (by rfl)⟩

/-- C8: the wildcard field of every computed record is the netmask XOR
0xFFFFFFFF, which complements the netmask bit for bit over the 32 bits. -/
theorem c8_wildcard (ip p : Nat) (hip : ip < 2 ^ 32) (hp : p ≤ 32) :
    ∃ info, computeSubnet ip p = some info ∧
      info.wildcard = intToIp (netmaskOfPfx p ^^^ 0xFFFFFFFF) ∧
      wildcardFromNetmask (netmaskOfPfx p) = netmaskOfPfx p ^^^ 0xFFFFFFFF ∧
      ∀ i, i < 32 →
        (wildcardFromNetmask (netmaskOfPfx p)).testBit i =
          !(netmaskOfPfx p).testBit i := by
  refine ⟨_, computeSubnet_eq hip hp, rfl, rfl, ?_⟩
  intro i hi
  unfold wildcardFromNetmask
  rw [Nat.testBit_xor, allOnes_eq, Nat.testBit_two_pow_sub_one]
  simp [hi]

theorem c8_wildcard_witness :
    ∃ info, computeSubnet 3232235786 24 = some info ∧
      info.wildcard = intToIp (netmaskOfPfx 24 ^^^ 0xFFFFFFFF) ∧
      wildcardFromNetmask (netmaskOfPfx 24) = netmaskOfPfx 24 ^^^ 0xFFFFFFFF ∧
      ∀ i, i < 32 →
        (wildcardFromNetmask (netmaskOfPfx 24)).testBit i =
          !(netmaskOfPfx 24).testBit i :=
  c8_wildcard 3232235786 24 (by norm_num) (by norm_num)

/-- C9: for every accepted dotted-quad address string and every P in
[0,32], the manual bitwise path of subnetter_v4 returns exactly the record
the ipaddress-based path returns, field for field. -/
theorem c9_manual_matches_ipaddress (s : List Char) (a p : Nat)
    (hs : ipIntFromString s = some a) (hp : p ≤ 32) :
    manualComputeSubnet s ('/' :: natToChars p) = v4ComputeSubnet a p ∧
    ∃ info, v4ComputeSubnet a p = some info :=
  ⟨manualComputeSubnet_eq hs hp,
   ⟨_, computeSubnet_eq (ipIntFromString_lt hs) hp⟩⟩

theorem c9_manual_matches_ipaddress_witness :
    manualComputeSubnet (("192.168.0.10").data) ('/' :: natToChars 24) =
      v4ComputeSubnet 3232235530 24 ∧
    ∃ info, v4ComputeSubnet 3232235530 24 = some info :=
  c9_manual_matches_ipaddress (("192.168.0.10").data) 3232235530 24
    (by rfl) (by norm_num)

/-- C10: for octet inputs, subnetter_v1 returns a broadcast whose first
three octets are the masked network octets and whose last octet is the
constant 255, whatever the mask's host bits are. -/
theorem c10_v1_broadcast (i0 i1 i2 i3 m0 m1 m2 m3 : Nat)
    (hi0 : i0 ≤ 255) (hi1 : i1 ≤ 255) (hi2 : i2 ≤ 255) (hi3 : i3 ≤ 255)
    (hm0 : m0 ≤ 255) (hm1 : m1 ≤ 255) (hm2 : m2 ≤ 255) (hm3 : m3 ≤ 255) :
    ∃ nh, calculateSubnetV1 (renderQuad i0 i1 i2 i3) (renderQuad m0 m1 m2 m3) =
      some (renderQuad (i0 &&& m0) (i1 &&& m1) (i2 &&& m2) (i3 &&& m3),
        renderQuad (i0 &&& m0) (i1 &&& m1) (i2 &&& m2) 255, nh) := by
  refine ⟨(2 : Int) ^ (32 - leadingOnesFrom 32
    ((m0 <<< 24) ||| ((m1 <<< 16) ||| ((m2 <<< 8) ||| m3)))) - 2, ?_⟩
  have b0 : i0 < 256 := by omega
  have b1 : i1 < 256 := by omega
  have b2 : i2 < 256 := by omega
  have b3 : i3 < 256 := by omega
  have d0 : m0 < 256 := by omega
  have d1 : m1 < 256 := by omega
  have d2 : m2 < 256 := by omega
  have d3 : m3 < 256 := by omega
  unfold calculateSubnetV1
  simp only [splitCh_renderQuad b0 b1 b2 b3, splitCh_renderQuad d0 d1 d2 d3,
    List.mapM_cons, List.mapM_nil,
    pyInt_natToChars i0 b0, pyInt_natToChars i1 b1,
    pyInt_natToChars i2 b2, pyInt_natToChars i3 b3,
    pyInt_natToChars m0 d0, pyInt_natToChars m1 d1,
    pyInt_natToChars m2 d2, pyInt_natToChars m3 d3,
    Option.bind_eq_bind, Option.some_bind, Option.pure_def]
  rw [if_pos (show (0 : Int) ≤ (i0 : Int) ∧ (0 : Int) ≤ (i1 : Int) ∧
      (0 : Int) ≤ (i2 : Int) ∧ (0 : Int) ≤ (i3 : Int) from
      ⟨Int.natCast_nonneg _, Int.natCast_nonneg _, Int.natCast_nonneg _,
        Int.natCast_nonneg _⟩),
    if_pos (show (0 : Int) ≤ (m0 : Int) ∧ (0 : Int) ≤ (m1 : Int) ∧
      (0 : Int) ≤ (m2 : Int) ∧ (0 : Int) ≤ (m3 : Int) from
      ⟨Int.natCast_nonneg _, Int.natCast_nonneg _, Int.natCast_nonneg _,
        Int.natCast_nonneg _⟩)]
  simp only [Int.toNat_natCast]

theorem c10_v1_broadcast_witness :
    ∃ nh, calculateSubnetV1 (renderQuad 192 168 1 10) (renderQuad 255 255 0 0) =
      some (renderQuad (192 &&& 255) (168 &&& 255) (1 &&& 0) (10 &&& 0),
        renderQuad (192 &&& 255) (168 &&& 255) (1 &&& 0) 255, nh) :=
  c10_v1_broadcast 192 168 1 10 255 255 0 0 (by norm_num) (by norm_num)
    (by norm_num) (by norm_num) (by norm_num) (by norm_num) (by norm_num)
    (by norm_num)

end Subnetter
